import Mathlib

/-!
Verification of the `handy` password generator (src/handy.py).

The source module is shallowly embedded: passwords and words are `List Char`,
Python dictionaries keyed by strings become Lean functions or association
lists, and the shared pseudo-random source is an explicit stream of natural
numbers (`RNG`), one entry consumed per `random.*` call.  Fallible operations
(`random.choice` on an empty sequence, indexing a string with a string, the
`spec[-1]` access) return `Except PyErr`.
-/

namespace Handy

/-- The pseudo-random source: an infinite stream of naturals.  Each call to a
`random.*` primitive consumes the head of the stream. -/
def RNG : Type := Nat → Nat

/-- Drop the first entry of the random stream. -/
def RNG.shift (r : RNG) : RNG := fun n => r (n + 1)

/-- Consume the head of the random stream. -/
def RNG.take1 (r : RNG) : Nat × RNG := (r 0, r.shift)

/-- Runtime errors of the embedded Python code. -/
inductive PyErr where
  /-- Python IndexError: sequence index out of range (`random.choice` on an empty
  sequence, or `spec[-1]` on an empty spec). -/
  | indexError
  /-- Python TypeError: indexing a string with a string. -/
  | typeError
deriving DecidableEq

/-- Python random.choice: a uniformly selected element of `xs`, modelled by
reducing the consumed stream entry modulo the length; `IndexError` when `xs`
is empty. -/
def pyChoice {α : Type} (xs : List α) (rng : RNG) : Except PyErr (α × RNG) :=
  match xs[rng 0 % xs.length]? with
  | some x => .ok (x, rng.shift)
  | none => .error .indexError

/-! ### Character data (ASCII letters and Python string methods) -/

/-- The lowercase ASCII letters. -/
def lowerAZ : List Char := "abcdefghijklmnopqrstuvwxyz".toList

/-- The uppercase ASCII letters. -/
def upperAZ : List Char := "ABCDEFGHIJKLMNOPQRSTUVWXYZ".toList

/-- Python `str.upper` on a single character, for the ASCII letters used by
the word catalog and the classification table. -/
def pyUpper (c : Char) : Char := (List.lookup c (List.zip lowerAZ upperAZ)).getD c

/-- Python `str.lower` on a single character, for the ASCII letters used by
the word catalog and the classification table. -/
def pyLower (c : Char) : Char := (List.lookup c (List.zip upperAZ lowerAZ)).getD c

/-- Python `str.isalpha` restricted to the ASCII letters in play. -/
def isalpha (c : Char) : Bool := (lowerAZ ++ upperAZ).contains c

/-- Helper for `title`: the flag records whether the previous character was
alphabetic (Python's `str.title` uppercases a letter exactly when the previous
character is not alphabetic). -/
def titleAux : Bool → List Char → List Char
  | _, [] => []
  | prev, c :: cs =>
    if isalpha c then (if prev then pyLower c else pyUpper c) :: titleAux true cs
    else c :: titleAux false cs

/-- Python `str.title`. -/
def title (w : List Char) : List Char := titleAux false w

/-! ### CHARS: the character classification table -/

/-- CHARS: individual characters classified by hand/type, keyed by strings
of the form `{left,right,any}-{lower,upper,letter,number,symbol,all}`,
mirroring the module-level construction in the source. -/
def CHARS (key : String) : List Char :=
  let leftLower := "qwertasdfgzxcvb".toList
  let leftUpper := leftLower.map pyUpper
  let leftLetter := leftLower ++ leftUpper
  let leftNumber := "12345".toList
  let leftSymbol := "!@#$%".toList
  let leftAll := leftLetter ++ leftNumber ++ leftSymbol
  let rightLower := "yuiophjklnm".toList
  let rightUpper := rightLower.map pyUpper
  let rightLetter := rightLower ++ rightUpper
  let rightNumber := "67890".toList
  let rightSymbol := "^&*()".toList
  let rightAll := rightLetter ++ rightNumber ++ rightSymbol
  if key = "left-lower" then leftLower
  else if key = "left-upper" then leftUpper
  else if key = "left-letter" then leftLetter
  else if key = "left-number" then leftNumber
  else if key = "left-symbol" then leftSymbol
  else if key = "left-all" then leftAll
  else if key = "right-lower" then rightLower
  else if key = "right-upper" then rightUpper
  else if key = "right-letter" then rightLetter
  else if key = "right-number" then rightNumber
  else if key = "right-symbol" then rightSymbol
  else if key = "right-all" then rightAll
  else if key = "any-lower" then leftLower ++ rightLower
  else if key = "any-upper" then leftUpper ++ rightUpper
  else if key = "any-letter" then leftLetter ++ rightLetter
  else if key = "any-number" then leftNumber ++ rightNumber
  else if key = "any-symbol" then leftSymbol ++ rightSymbol
  else if key = "any-all" then leftAll ++ rightAll
  else []

/-! ### The letter mappings -/

/-- A Python value that is either a dictionary from characters to characters
or a string.  The letter-mapping tables are meant to hold dictionaries, but
the `MOD10` construction in the source overwrites its dictionaries with plain
strings, and `force_char` receives whichever value is stored. -/
inductive PyVal where
  | dict (pairs : List (Char × Char))
  | str (s : List Char)
deriving DecidableEq

/-- Python `key in value`: dictionary key membership, or substring membership
for a (single-character) string. -/
def pyMem : PyVal → Char → Bool
  | .dict ps, c => (List.lookup c ps).isSome
  | .str s, c => s.contains c

/-- Python `value[key]`: dictionary lookup; indexing a string with a string
is a `TypeError`, modelled as `none`. -/
def pyGet : PyVal → Char → Option Char
  | .dict ps, c => List.lookup c ps
  | .str _, _ => none

/-- A letter-mapping table: the values stored under the `'to-number'` and
`'to-symbol'` keys. -/
structure MapPair where
  toNumber : PyVal
  toSymbol : PyVal
deriving DecidableEq

/-- NUM_SYM: the digit-to-shifted-symbol pairs. -/
def NUM_SYM : List (Char × Char) := List.zip "1234567890".toList "!@#$%^&*()".toList

/-- MOD10: the source builds it with a loop that assigns
`MOD10['to-number'] = str(char_index % 10)` (no `[char]` subscript), so every
iteration replaces the whole entry; the embedding folds over the alphabet
positions exactly as the loop does. -/
def MOD10 : MapPair :=
  (List.range 26).foldl
    (fun _ i =>
      let ci := i + 1
      let digit := "0123456789".toList.getD (ci % 10) ' '
      { toNumber := .str [digit], toSymbol := .str [(List.lookup digit NUM_SYM).getD ' '] })
    { toNumber := .dict [], toSymbol := .dict [] }

/-- PHONE: the telephone-keypad letter mapping. -/
def PHONE : MapPair :=
  { toNumber := .dict (List.zip lowerAZ "22233344455566677778889999".toList)
    toSymbol := .dict (List.zip lowerAZ "@@@###$$$%%%^^^&&&&***((((".toList) }

/-- VERT_BASE: QWERTY vertical columns and their digits. -/
def VERT_BASE : List (List Char × Char) :=
  [("zaq".toList, '1'), ("xsw".toList, '2'), ("cde".toList, '3'), ("vfr".toList, '4'),
   ("bgt".toList, '5'), ("nhy".toList, '6'), ("mju".toList, '7'), ("ki".toList, '8'),
   ("lo".toList, '9'), ("p".toList, '0')]

/-- VERTICAL: the QWERTY vertical-column letter mapping, built from
`VERT_BASE` as in the source loop. -/
def VERTICAL : MapPair :=
  { toNumber := .dict ((VERT_BASE.map (fun p => p.1.map (fun c => (c, p.2)))).flatten)
    toSymbol := .dict ((VERT_BASE.map
      (fun p => p.1.map (fun c => (c, (List.lookup p.2 NUM_SYM).getD ' ')))).flatten) }

/-! ### The word catalog -/

/-- The word catalog: words partitioned by handedness, as produced by
`load_words`. -/
structure WordCat where
  left : List (List Char)
  right : List (List Char)
  even : List (List Char)
  mixed : List (List Char)
  any : List (List Char)

/-- Dictionary access `words[key]`. -/
def WordCat.get (w : WordCat) (key : String) : List (List Char) :=
  if key = "left" then w.left
  else if key = "right" then w.right
  else if key = "even" then w.even
  else if key = "mixed" then w.mixed
  else if key = "any" then w.any
  else []

/-! ### The interpreter -/

/-- Function check_hand: check for changes to the hand settings during processing.
`=` switches to even-handed with a coin-flip starting hand (the consumed
stream entry is even exactly when Python's `random.random() < 0.5`); `<`, `>`
and `@` set a fixed hand and clear the even flag; when even-handed the hands
are swapped each character. -/
def check_hand (spec : Char) (even : Bool) (hand next_hand : String) (rng : RNG) :
    (Bool × String × String) × RNG :=
  let (even, hand, next_hand, rng) :=
    if spec = '=' then
      let hand := "left"
      let nh := "right"
      let (r, rng') := rng.take1
      if r % 2 = 0 then (true, nh, hand, rng') else (true, hand, nh, rng')
    else if spec = '<' then (false, "left", next_hand, rng)
    else if spec = '>' then (false, "right", next_hand, rng)
    else if spec = '@' then (false, "any", next_hand, rng)
    else (even, hand, next_hand, rng)
  if even then ((even, next_hand, hand), rng) else ((even, hand, next_hand), rng)

/-- One draw of `next_char`: a random character of the given kind for the
given hand. -/
def draw_char (chars : String → List Char) (hand : String) (kind : String) (rng : RNG) :
    Except PyErr (List Char × RNG) :=
  match pyChoice (chars (hand ++ kind)) rng with
  | .ok (c, rng') => Except.ok ([c], rng')
  | .error e => Except.error e

/-- Function next_char: determine the next character in the password.
Literal tokens draw from the corresponding `{hand}-{kind}` set; every other
token contributes the empty string. -/
def next_char (spec : Char) (chars : String → List Char) (hand : String) (rng : RNG) :
    Except PyErr (List Char × RNG) :=
  if spec = '#' then draw_char chars hand "-number" rng
  else if spec = '$' then draw_char chars hand "-symbol" rng
  else if spec = 'A' then draw_char chars hand "-upper" rng
  else if spec = 'a' then draw_char chars hand "-lower" rng
  else if spec = 'L' then draw_char chars hand "-letter" rng
  else if spec = '.' then draw_char chars hand "-all" rng
  else .ok ([], rng)

/-- Function get_word: choose a random word of length between `word_min` and
`word_max` from the even category when even-handed, else from the current
hand's category, returned in title case.  `random.choice` on an empty
filtered list is an `IndexError`. -/
def get_word (words : WordCat) (word_min word_max : Nat) (even : Bool) (hand : String)
    (rng : RNG) : Except PyErr (List Char × RNG) :=
  let word_key := if even then "even" else hand
  let valid_words := (words.get word_key).filter
    (fun w => decide (word_min ≤ w.length) && decide (w.length ≤ word_max))
  match pyChoice valid_words rng with
  | .ok (w, rng') => .ok (title w, rng')
  | .error e => .error e

/-- Function force_char: force the characters at the given indexes.  Indexes past
the end of the password are skipped; a character with a mapping entry is
replaced by its image (indexing a string-valued mapping is a `TypeError`);
otherwise a random element of `any_char` is used.  The source also prints
the original password as a memorability hint when the index list is
non-empty; that console output does not affect the returned value and is
not modelled. -/
def force_char (password : List Char) (indexes : List Nat) (mapping : PyVal)
    (any_char : List Char) (rng : RNG) : Except PyErr (List Char × RNG) :=
  match indexes with
  | [] => .ok (password, rng)
  | index :: rest =>
    if password.length ≤ index then force_char password rest mapping any_char rng
    else
      let cur := password.getD index ' '
      let chosen : Except PyErr (Char × RNG) :=
        if pyMem mapping cur then
          match pyGet mapping cur with
          | some ch => .ok (ch, rng)
          | none => .error .typeError
        else pyChoice any_char rng
      match chosen with
      | .error e => .error e
      | .ok (ch, rng1) =>
        force_char (password.take index ++ ch :: password.drop (index + 1))
          rest mapping any_char rng1

/-- Function handed: handedness of a word when touch typed, determined from
membership in `CHARS['right-all']`. -/
def handed (word : List Char) : String :=
  let coded := word.map (fun c => (CHARS "right-all").contains c)
  if coded.count true = 0 then "left"
  else if coded.count true = coded.length then "right"
  else
    let pairs := List.zipWith (fun a b => a != b) coded coded.tail
    if pairs.count true = pairs.length then "even" else "mixed"

/-- The loop state of `get_pass`: the recorded forced indexes, the hand
settings, the word-length accumulator and the password buffer. -/
structure PassState where
  localNumber : List Nat
  localSymbol : List Nat
  hand : String
  nextHand : String
  even : Bool
  wordMin : Nat
  wordMax : Nat
  password : List Char
deriving DecidableEq

/-- The initial loop state of `get_pass`. -/
def initState : PassState :=
  { localNumber := [], localSymbol := [], hand := "any", nextHand := "",
    even := false, wordMin := 0, wordMax := 0, password := [] }

/-- The tail of the loop body: record the buffer position a word letter will
occupy (`len(password) + word_max - 1`) under `N`/`n` or `S`/`s`. -/
def track_forced (c : Char) (st : PassState) : PassState :=
  let password_length := st.password.length + st.wordMax
  if c = 'N' ∨ c = 'n' then { st with localNumber := st.localNumber ++ [password_length - 1] }
  else if c = 'S' ∨ c = 's' then { st with localSymbol := st.localSymbol ++ [password_length - 1] }
  else st

/-- The word-flush part of the loop body: when a word specification is
pending, select a word, append it, possibly swap hands (even-handed rule on
the word's last character) and drop recorded indexes past the new buffer
length. -/
def flush_word (words : WordCat) (chars : String → List Char) (st : PassState) (rng : RNG) :
    Except PyErr (PassState × RNG) :=
  if st.wordMin ≠ 0 then
    match get_word words st.wordMin st.wordMax st.even st.hand rng with
    | .error e => .error e
    | .ok (w, rng1) =>
      let password := st.password ++ w
      let (hand, next_hand) :=
        if st.even && (chars (st.hand ++ "-all")).contains (password.getLastD ' ') then
          (st.nextHand, st.hand)
        else (st.hand, st.nextHand)
      .ok ({ st with
              password := password, wordMin := 0, wordMax := 0,
              hand := hand, nextHand := next_hand,
              localNumber := st.localNumber.filter (fun i => decide (i < password.length)),
              localSymbol := st.localSymbol.filter (fun i => decide (i < password.length)) },
           rng1)
  else .ok (st, rng)

/-- One iteration of the `get_pass` loop over a spec token. -/
def pass_step (words : WordCat) (chars : String → List Char) (c : Char) (st : PassState)
    (rng : RNG) : Except PyErr (PassState × RNG) :=
  if ("WNS".toList).contains c then
    .ok (track_forced c { st with wordMin := st.wordMin + 1, wordMax := st.wordMax + 1 }, rng)
  else if ("wns".toList).contains c then
    .ok (track_forced c { st with wordMax := st.wordMax + 1 }, rng)
  else
    match flush_word words chars st rng with
    | .error e => .error e
    | .ok (st1, rng1) =>
      match next_char c chars st1.hand rng1 with
      | .error e => .error e
      | .ok (lit, rng2) =>
        let ((even, hand, next_hand), rng3) := check_hand c st1.even st1.hand st1.nextHand rng2
        .ok (track_forced c { st1 with
              password := st1.password ++ lit,
              even := even, hand := hand, nextHand := next_hand }, rng3)

/-- The `get_pass` loop over the whole spec. -/
def pass_loop (words : WordCat) (chars : String → List Char) :
    List Char → PassState → RNG → Except PyErr (PassState × RNG)
  | [], st, rng => .ok (st, rng)
  | c :: rest, st, rng =>
    match pass_step words chars c st rng with
    | .ok (st', rng') => pass_loop words chars rest st' rng'
    | .error e => .error e

/-- The initial `spec[-1]` inspection of `get_pass`: an `IndexError` on the
empty spec, else the spec extended with `';'` when it ends in a word token. -/
def spec_extend (spec : List Char) : Except PyErr (List Char) :=
  match spec.getLast? with
  | none => .error .indexError
  | some c => .ok (if ("WwNnSs".toList).contains c then spec ++ [';'] else spec)

/-- Everything of `get_pass` up to but excluding the final truncation: the spec inspection,
the token loop, and the two forcing passes (numbers, then symbols) with the
caller-supplied extra indexes appended. -/
def get_pass_core (spec : List Char) (words : WordCat) (chars : String → List Char)
    (mapping : MapPair) (to_number to_symbol : List Nat) (rng : RNG) :
    Except PyErr (List Char × RNG) :=
  match spec_extend spec with
  | .error e => .error e
  | .ok spec2 =>
    match pass_loop words chars spec2 initState rng with
    | .error e => .error e
    | .ok (st, rng1) =>
      match force_char st.password (st.localNumber ++ to_number) mapping.toNumber
          (chars "any-number") rng1 with
      | .error e => .error e
      | .ok (p1, rng2) =>
        force_char p1 (st.localSymbol ++ to_symbol) mapping.toSymbol
          (chars "any-symbol") rng2

/-- The final truncation step of `get_pass`: when `trunc` is nonzero, draw
`k` from `[0, trunc]` (`random.randrange(trunc + 1)`) and drop the last `k`
characters when `k` is nonzero. -/
def truncate_pass (trunc : Nat) (password : List Char) (rng : RNG) : List Char × RNG :=
  if trunc ≠ 0 then
    let (r, rng1) := rng.take1
    let k := r % (trunc + 1)
    (if k ≠ 0 then password.take (password.length - k) else password, rng1)
  else (password, rng)

/-- Function get_pass: generate a random password from a specification. -/
def get_pass (spec : List Char) (words : WordCat) (chars : String → List Char)
    (mapping : MapPair) (to_number to_symbol : List Nat) (trunc : Nat) (rng : RNG) :
    Except PyErr (List Char × RNG) :=
  match get_pass_core spec words chars mapping to_number to_symbol rng with
  | .error e => .error e
  | .ok (p, rng1) => .ok (truncate_pass trunc p rng1)

/-! ### Analysis vocabulary -/

/-- The word tokens of the spec language. -/
def wordTokens : List Char := "WwNnSs".toList

/-- The literal-producing tokens of the spec language. -/
def literalTokens : List Char := "#$AaL.".toList

/-- The number of literal-producing tokens in a spec. -/
def countLiterals (spec : List Char) : Nat := spec.countP (fun c => decide (c ∈ literalTokens))

/-- The `{kind}` key suffix a literal token draws from. -/
def kind_key (c : Char) : String :=
  if c = '#' then "-number"
  else if c = '$' then "-symbol"
  else if c = 'A' then "-upper"
  else if c = 'a' then "-lower"
  else if c = 'L' then "-letter"
  else "-all"

/-- Well-formedness of the hand settings: the current hand is one of the
three table hands, and in even-handed mode both hands are concrete sides. -/
def HandOK (even : Bool) (hand next_hand : String) : Prop :=
  (hand = "left" ∨ hand = "right" ∨ hand = "any") ∧
    (even = true → (hand = "left" ∨ hand = "right") ∧
      (next_hand = "left" ∨ next_hand = "right"))

/-- Membership in the character class a forcing pass can produce: an image
of the mapping, or an element of the fallback set. -/
def inForcedClass (mapping : PyVal) (any_char : List Char) (c : Char) : Prop :=
  (∃ d, pyMem mapping d = true ∧ pyGet mapping d = some c) ∨ c ∈ any_char

/-- Right-handedness of a character, per `CHARS['right-all']`. -/
def isRightChar (c : Char) : Bool := (CHARS "right-all").contains c

/-- Strict alternation of a boolean sequence. -/
def alternates : List Bool → Bool
  | [] => true
  | [_] => true
  | a :: b :: rest => (a != b) && alternates (b :: rest)

/-- The handedness classification as worded by the specification: `left` when
no character is right-handed (including the empty word), `right` when all
are, `even` when handedness strictly alternates, `mixed` otherwise. -/
def handed_spec (word : List Char) : String :=
  if word.all (fun c => !(isRightChar c)) then "left"
  else if word.all isRightChar then "right"
  else if alternates (word.map isRightChar) then "even"
  else "mixed"

/-! ### Lemmas about `pyChoice` -/

theorem pyChoice_of_ne_nil {α : Type} (xs : List α) (rng : RNG) (h : xs ≠ []) :
    ∃ x, pyChoice xs rng = .ok (x, rng.shift) ∧ x ∈ xs := by
  have hlen : 0 < xs.length := List.length_pos.2 h
  have hlt : rng 0 % xs.length < xs.length := Nat.mod_lt _ hlen
  refine ⟨xs[rng 0 % xs.length], ?_, List.getElem_mem hlt⟩
  unfold pyChoice
  simp [List.getElem?_eq_getElem hlt]

theorem pyChoice_ok {α : Type} {xs : List α} {rng : RNG} {x : α} {rng' : RNG}
    (h : pyChoice xs rng = .ok (x, rng')) : x ∈ xs ∧ rng' = rng.shift := by
  unfold pyChoice at h
  cases hg : xs[rng 0 % xs.length]? with
  | none => rw [hg] at h; exact absurd h (by simp)
  | some y =>
    rw [hg] at h
    simp only [Except.ok.injEq, Prod.mk.injEq] at h
    exact ⟨h.1 ▸ List.getElem?_mem hg, h.2.symm⟩

/-! ### Lemmas about the in-place character replacement -/

theorem slice_length {p : List Char} {i : Nat} (c : Char) (h : i < p.length) :
    (p.take i ++ c :: p.drop (i + 1)).length = p.length := by
  simp only [List.length_append, List.length_take, List.length_cons, List.length_drop]
  omega

theorem slice_getElem_self {p : List Char} {i : Nat} (c : Char) (h : i < p.length) :
    (p.take i ++ c :: p.drop (i + 1))[i]? = some c := by
  have ht : (p.take i).length = i := by
    simp only [List.length_take]
    omega
  rw [List.getElem?_append_right (by omega)]
  simp [ht]

theorem slice_getElem_ne {p : List Char} {i j : Nat} (c : Char) (h : i < p.length)
    (hij : j ≠ i) : (p.take i ++ c :: p.drop (i + 1))[j]? = p[j]? := by
  have ht : (p.take i).length = i := by
    simp only [List.length_take]
    omega
  rcases Nat.lt_or_ge j p.length with hjp | hjp
  · rcases Nat.lt_or_ge j i with hj | hj
    · rw [List.getElem?_append_left (by rw [ht]; exact hj), List.getElem?_take_of_lt hj]
    · have hj' : i < j := lt_of_le_of_ne hj (Ne.symm hij)
      rw [List.getElem?_append_right (by omega)]
      rw [ht]
      obtain ⟨k, hk⟩ : ∃ k, j - i = k + 1 := ⟨j - i - 1, by omega⟩
      rw [hk]
      simp only [List.getElem?_cons_succ, List.getElem?_drop]
      congr 1
      omega
  · rw [List.getElem?_eq_none hjp, List.getElem?_eq_none]
    simp only [List.length_append, List.length_take, List.length_cons, List.length_drop]
    omega

/-! ### Lemmas about `force_char` -/

theorem force_char_nil (p : List Char) (m : PyVal) (anyC : List Char) (rng : RNG) :
    force_char p [] m anyC rng = .ok (p, rng) := rfl

theorem force_char_cons_lt {p : List Char} {i : Nat} (rest : List Nat) (m : PyVal)
    (anyC : List Char) (rng : RNG) (h : i < p.length) :
    force_char p (i :: rest) m anyC rng =
      match (if pyMem m (p.getD i ' ') then
               match pyGet m (p.getD i ' ') with
               | some ch => Except.ok (ch, rng)
               | none => Except.error PyErr.typeError
             else pyChoice anyC rng) with
      | .error e => .error e
      | .ok (ch, rng1) =>
        force_char (p.take i ++ ch :: p.drop (i + 1)) rest m anyC rng1 := by
  rw [force_char]
  simp [Nat.not_le.2 h]

theorem force_char_cons_ge {p : List Char} {i : Nat} (rest : List Nat) (m : PyVal)
    (anyC : List Char) (rng : RNG) (h : p.length ≤ i) :
    force_char p (i :: rest) m anyC rng = force_char p rest m anyC rng := by
  rw [force_char]
  simp [h]

/-- Frame property of `force_char`: on success the length is preserved and
every in-range position not listed keeps its character. -/
theorem force_char_frame : ∀ (indexes : List Nat) (p : List Char) (m : PyVal)
    (anyC : List Char) (rng : RNG) (out : List Char) (rng' : RNG),
    force_char p indexes m anyC rng = .ok (out, rng') →
    out.length = p.length ∧ ∀ j, j < p.length → j ∉ indexes → out[j]? = p[j]? := by
  intro indexes
  induction indexes with
  | nil =>
    intro p m anyC rng out rng' h
    rw [force_char_nil] at h
    simp only [Except.ok.injEq, Prod.mk.injEq] at h
    exact ⟨h.1 ▸ rfl, fun j _ _ => h.1 ▸ rfl⟩
  | cons i rest ih =>
    intro p m anyC rng out rng' h
    rcases Nat.lt_or_ge i p.length with hi | hi
    · rw [force_char_cons_lt rest m anyC rng hi] at h
      cases hc : (if pyMem m (p.getD i ' ') then
          match pyGet m (p.getD i ' ') with
          | some ch => Except.ok (ch, rng)
          | none => Except.error PyErr.typeError
        else pyChoice anyC rng) with
      | error e => rw [hc] at h; exact absurd h (by simp)
      | ok v =>
        obtain ⟨ch, rng1⟩ := v
        rw [hc] at h
        simp only at h
        obtain ⟨hlen, hframe⟩ := ih _ m anyC rng1 out rng' h
        refine ⟨hlen.trans (slice_length ch hi), fun j hj hnot => ?_⟩
        have hj' : j < (p.take i ++ ch :: p.drop (i + 1)).length := by
          rw [slice_length ch hi]; exact hj
        have hji : j ≠ i := fun he => hnot (he ▸ List.mem_cons_self i rest)
        rw [hframe j hj' (fun hm => hnot (List.mem_cons_of_mem i hm)),
          slice_getElem_ne ch hi hji]
    · rw [force_char_cons_ge rest m anyC rng hi] at h
      obtain ⟨hlen, hframe⟩ := ih p m anyC rng out rng' h
      exact ⟨hlen, fun j hj hnot => hframe j hj (fun hm => hnot (List.mem_cons_of_mem i hm))⟩

/-- When every listed index is past the end of the password, `force_char` is
the identity. -/
theorem force_char_oob : ∀ (indexes : List Nat) (p : List Char) (m : PyVal)
    (anyC : List Char) (rng : RNG),
    (∀ i ∈ indexes, p.length ≤ i) →
    force_char p indexes m anyC rng = .ok (p, rng) := by
  intro indexes
  induction indexes with
  | nil => intro p m anyC rng _; rfl
  | cons i rest ih =>
    intro p m anyC rng h
    rw [force_char_cons_ge rest m anyC rng (h i (List.mem_cons_self i rest))]
    exact ih p m anyC rng (fun j hj => h j (List.mem_cons_of_mem i hj))

/-- Forcing distinct indexes whose current characters have no mapping entry
succeeds (given a non-empty fallback set) and puts a fallback character at
every listed in-range position. -/
theorem force_char_fresh : ∀ (indexes : List Nat) (p : List Char) (m : PyVal)
    (anyC : List Char) (rng : RNG),
    anyC ≠ [] → indexes.Nodup →
    (∀ i ∈ indexes, i < p.length → pyMem m (p.getD i ' ') = false) →
    ∃ out rng', force_char p indexes m anyC rng = .ok (out, rng') ∧
      out.length = p.length ∧
      (∀ j, j < p.length → j ∉ indexes → out[j]? = p[j]?) ∧
      (∀ i ∈ indexes, i < p.length → ∃ c ∈ anyC, out[i]? = some c) := by
  intro indexes
  induction indexes with
  | nil =>
    intro p m anyC rng _ _ _
    exact ⟨p, rng, rfl, rfl, fun j _ _ => rfl, fun i hi => absurd hi (List.not_mem_nil i)⟩
  | cons i rest ih =>
    intro p m anyC rng hany hnd hmem
    rcases Nat.lt_or_ge i p.length with hi | hi
    · have hmi : pyMem m (p.getD i ' ') = false :=
        hmem i (List.mem_cons_self i rest) hi
      obtain ⟨x, hx, hxmem⟩ := pyChoice_of_ne_nil anyC rng hany
      have hstep := force_char_cons_lt (p := p) (i := i) rest m anyC rng hi
      rw [hmi] at hstep
      simp only [Bool.false_eq_true, if_false] at hstep
      rw [hx] at hstep
      simp only at hstep
      set p' := p.take i ++ x :: p.drop (i + 1) with hp'
      have hlen' : p'.length = p.length := slice_length x hi
      have hnd' : rest.Nodup := (List.nodup_cons.1 hnd).2
      have hni : i ∉ rest := (List.nodup_cons.1 hnd).1
      have hmem' : ∀ j ∈ rest, j < p'.length → pyMem m (p'.getD j ' ') = false := by
        intro j hj hjlen
        have hji : j ≠ i := fun he => hni (he ▸ hj)
        have : p'.getD j ' ' = p.getD j ' ' := by
          rw [List.getD_eq_getElem?_getD, List.getD_eq_getElem?_getD,
            slice_getElem_ne x hi hji]
        rw [this]
        exact hmem j (List.mem_cons_of_mem i hj) (hlen' ▸ hjlen)
      obtain ⟨out, rng', hfc, hlen, hframe, hforced⟩ :=
        ih p' m anyC rng.shift hany hnd' hmem'
      refine ⟨out, rng', by rw [hstep]; exact hfc, hlen.trans hlen', ?_, ?_⟩
      · intro j hj hnot
        have hji : j ≠ i := fun he => hnot (he ▸ List.mem_cons_self i rest)
        rw [hframe j (by omega) (fun hm => hnot (List.mem_cons_of_mem i hm)),
          slice_getElem_ne x hi hji]
      · intro j hj hjlen
        rcases List.mem_cons.1 hj with he | hm
        · subst he
          refine ⟨x, hxmem, ?_⟩
          rw [hframe j (by omega) hni, slice_getElem_self x hi]
        · exact hforced j hm (by omega)
    · have hstep := force_char_cons_ge (p := p) (i := i) rest m anyC rng hi
      obtain ⟨out, rng', hfc, hlen, hframe, hforced⟩ :=
        ih p m anyC rng hany (List.nodup_cons.1 hnd).2
          (fun j hj => hmem j (List.mem_cons_of_mem i hj))
      refine ⟨out, rng', by rw [hstep]; exact hfc, hlen, ?_, ?_⟩
      · exact fun j hj hnot => hframe j hj (fun hm => hnot (List.mem_cons_of_mem i hm))
      · intro j hj hjlen
        rcases List.mem_cons.1 hj with he | hm
        · omega
        · exact hforced j hm hjlen

/-! ### Lemmas about `title` and the character tables -/

theorem titleAux_length : ∀ (b : Bool) (w : List Char), (titleAux b w).length = w.length := by
  intro b w
  induction w generalizing b with
  | nil => rfl
  | cons c cs ih =>
    rw [titleAux]
    by_cases h : isalpha c = true
    · rw [if_pos h]
      simp [ih]
    · rw [if_neg h]
      simp [ih]

theorem title_length (w : List Char) : (title w).length = w.length := titleAux_length false w

theorem pyUpper_mem_upper : ∀ c ∈ lowerAZ, pyUpper c ∈ upperAZ := by decide

theorem pyLower_mem_lower : ∀ c ∈ lowerAZ, pyLower c = c := by decide

theorem titleAux_letters : ∀ (w : List Char) (b : Bool), (∀ c ∈ w, c ∈ lowerAZ) →
    ∀ c ∈ titleAux b w, c ∈ lowerAZ ∨ c ∈ upperAZ := by
  intro w
  induction w with
  | nil => intro b _ c hc; exact absurd hc (List.not_mem_nil c)
  | cons d ds ih =>
    intro b hw c hc
    have hd : d ∈ lowerAZ := hw d (List.mem_cons_self d ds)
    have hds : ∀ x ∈ ds, x ∈ lowerAZ := fun x hx => hw x (List.mem_cons_of_mem d hx)
    rw [titleAux] at hc
    by_cases ha : isalpha d = true
    · rw [if_pos ha] at hc
      rcases List.mem_cons.1 hc with he | hm
      · subst he
        by_cases hb : b = true
        · rw [if_pos hb, pyLower_mem_lower d hd]
          exact Or.inl hd
        · rw [if_neg hb]
          exact Or.inr (pyUpper_mem_upper d hd)
      · exact ih true hds c hm
    · rw [if_neg ha] at hc
      rcases List.mem_cons.1 hc with he | hm
      · exact he ▸ Or.inl hd
      · exact ih false hds c hm

theorem title_letters (w : List Char) (h : ∀ c ∈ w, c ∈ lowerAZ) :
    ∀ c ∈ title w, c ∈ lowerAZ ∨ c ∈ upperAZ := titleAux_letters w false h

/-- No ASCII letter is a key of the (string-valued) `MOD10` number table. -/
theorem MOD10_toNumber_no_letter :
    ∀ c ∈ lowerAZ ++ upperAZ, pyMem MOD10.toNumber c = false := by decide

/-- No ASCII letter is a key of the (string-valued) `MOD10` symbol table. -/
theorem MOD10_toSymbol_no_letter :
    ∀ c ∈ lowerAZ ++ upperAZ, pyMem MOD10.toSymbol c = false := by decide

/-- Every valid `{hand}-{kind}` key of `CHARS` has a non-empty class. -/
theorem CHARS_hand_ne_nil : ∀ hand ∈ ["left", "right", "any"],
    ∀ suf ∈ ["-lower", "-upper", "-letter", "-number", "-symbol", "-all"],
    CHARS (hand ++ suf) ≠ [] := by decide

/-! ### Lemmas about `check_hand` -/

theorem check_hand_HandOK (c : Char) (even : Bool) (hand nh : String) (rng : RNG)
    (h : HandOK even hand nh) :
    ∃ e' h' n' rng', check_hand c even hand nh rng = ((e', h', n'), rng') ∧ HandOK e' h' n' := by
  unfold check_hand
  by_cases hc1 : c = '='
  · rw [if_pos hc1]
    simp only [RNG.take1]
    by_cases hr : rng 0 % 2 = 0
    · rw [if_pos hr]
      exact ⟨true, "left", "right", rng.shift, rfl, by simp [HandOK]⟩
    · rw [if_neg hr]
      exact ⟨true, "right", "left", rng.shift, rfl, by simp [HandOK]⟩
  · rw [if_neg hc1]
    by_cases hc2 : c = '<'
    · rw [if_pos hc2]
      exact ⟨false, "left", nh, rng, rfl, by simp [HandOK]⟩
    · rw [if_neg hc2]
      by_cases hc3 : c = '>'
      · rw [if_pos hc3]
        exact ⟨false, "right", nh, rng, rfl, by simp [HandOK]⟩
      · rw [if_neg hc3]
        by_cases hc4 : c = '@'
        · rw [if_pos hc4]
          exact ⟨false, "any", nh, rng, rfl, by simp [HandOK]⟩
        · rw [if_neg hc4]
          by_cases he : even = true
          · subst he
            simp only [if_pos rfl]
            obtain ⟨hh, hnh⟩ := h.2 rfl
            exact ⟨true, nh, hand, rng, rfl, ⟨hnh.imp id Or.inl, fun _ => ⟨hnh, hh⟩⟩⟩
          · have he' : even = false := by
              cases even
              · rfl
              · exact absurd rfl he
            subst he'
            simp only [Bool.false_eq_true, if_false]
            exact ⟨false, hand, nh, rng, rfl, ⟨h.1, by simp⟩⟩

/-- Tokens other than the four mode switches leave the hand settings
unchanged apart from the even-handed swap. -/
theorem check_hand_other (c : Char) (even : Bool) (hand nh : String) (rng : RNG)
    (h1 : c ≠ '=') (h2 : c ≠ '<') (h3 : c ≠ '>') (h4 : c ≠ '@') :
    check_hand c even hand nh rng =
      (if even then (even, nh, hand) else (even, hand, nh), rng) := by
  unfold check_hand
  rw [if_neg h1, if_neg h2, if_neg h3, if_neg h4]
  by_cases he : even = true
  · subst he; rfl
  · have he' : even = false := by
      cases even
      · rfl
      · exact absurd rfl he
    subst he'
    rfl

/-! ### Lemmas about `next_char` -/

theorem next_char_not_literal (c : Char) (chars : String → List Char) (hand : String)
    (rng : RNG) (h : c ∉ literalTokens) : next_char c chars hand rng = .ok ([], rng) := by
  have h1 : c ≠ '#' := fun he => h (by rw [he]; decide)
  have h2 : c ≠ '$' := fun he => h (by rw [he]; decide)
  have h3 : c ≠ 'A' := fun he => h (by rw [he]; decide)
  have h4 : c ≠ 'a' := fun he => h (by rw [he]; decide)
  have h5 : c ≠ 'L' := fun he => h (by rw [he]; decide)
  have h6 : c ≠ '.' := fun he => h (by rw [he]; decide)
  unfold next_char
  rw [if_neg h1, if_neg h2, if_neg h3, if_neg h4, if_neg h5, if_neg h6]

theorem next_char_literal (c : Char) (hand : String) (rng : RNG)
    (hc : c ∈ literalTokens) (hh : hand = "left" ∨ hand = "right" ∨ hand = "any") :
    ∃ x, next_char c CHARS hand rng = .ok ([x], rng.shift) ∧
      x ∈ CHARS (hand ++ kind_key c) := by
  have hne : CHARS (hand ++ kind_key c) ≠ [] := by
    have hmem : hand ∈ ["left", "right", "any"] := by
      rcases hh with rfl | rfl | rfl <;> decide
    have hsuf : kind_key c ∈ ["-lower", "-upper", "-letter", "-number", "-symbol", "-all"] := by
      fin_cases hc <;> decide
    exact CHARS_hand_ne_nil hand hmem (kind_key c) hsuf
  obtain ⟨x, hx, hxm⟩ := pyChoice_of_ne_nil (CHARS (hand ++ kind_key c)) rng hne
  have hdraw : draw_char CHARS hand (kind_key c) rng = .ok ([x], rng.shift) := by
    unfold draw_char
    rw [hx]
  refine ⟨x, ?_, hxm⟩
  fin_cases hc <;> unfold next_char <;>
    simp only [kind_key, reduceIte] at hdraw ⊢ <;> exact hdraw

/-! ### Lemmas about the loop step -/

theorem track_forced_other (c : Char) (st : PassState) (h1 : c ≠ 'N') (h2 : c ≠ 'n')
    (h3 : c ≠ 'S') (h4 : c ≠ 's') : track_forced c st = st := by
  unfold track_forced
  rw [if_neg (fun h => h.elim h1 h2), if_neg (fun h => h.elim h3 h4)]

theorem flush_word_skip (words : WordCat) (chars : String → List Char) (st : PassState)
    (rng : RNG) (h : st.wordMin = 0) : flush_word words chars st rng = .ok (st, rng) := by
  unfold flush_word
  rw [if_neg (by simp [h])]

theorem not_contains_WNS {c : Char} (h : c ∉ wordTokens) :
    ("WNS".toList).contains c = false := by
  cases hb : ("WNS".toList).contains c with
  | false => rfl
  | true =>
    exfalso
    have hm := List.mem_of_elem_eq_true hb
    fin_cases hm <;> exact h (by decide)

theorem not_contains_wns {c : Char} (h : c ∉ wordTokens) :
    ("wns".toList).contains c = false := by
  cases hb : ("wns".toList).contains c with
  | false => rfl
  | true =>
    exfalso
    have hm := List.mem_of_elem_eq_true hb
    fin_cases hm <;> exact h (by decide)

theorem not_word_of_literal {c : Char} (h : c ∈ literalTokens) : c ∉ wordTokens := by
  fin_cases h <;> decide

/-- A step on a token that is not a word token, from a state with no pending
word: the buffer grows by one character exactly on literal tokens, the
word-length accumulator and the forced-index lists are untouched, and the
hand settings stay well-formed. -/
theorem pass_step_no_word (words : WordCat) (c : Char) (st : PassState) (rng : RNG)
    (hc : c ∉ wordTokens) (hwm : st.wordMin = 0)
    (hok : HandOK st.even st.hand st.nextHand) :
    ∃ st' rng', pass_step words CHARS c st rng = .ok (st', rng') ∧
      st'.password.length = st.password.length + (if c ∈ literalTokens then 1 else 0) ∧
      st'.wordMin = 0 ∧ st'.wordMax = st.wordMax ∧
      st'.localNumber = st.localNumber ∧ st'.localSymbol = st.localSymbol ∧
      HandOK st'.even st'.hand st'.nextHand := by
  have hN : c ≠ 'N' := fun he => hc (by rw [he]; decide)
  have hn : c ≠ 'n' := fun he => hc (by rw [he]; decide)
  have hS : c ≠ 'S' := fun he => hc (by rw [he]; decide)
  have hs : c ≠ 's' := fun he => hc (by rw [he]; decide)
  unfold pass_step
  rw [not_contains_WNS hc, not_contains_wns hc]
  simp only [Bool.false_eq_true, if_false]
  rw [flush_word_skip words CHARS st rng hwm]
  dsimp only
  by_cases hlit : c ∈ literalTokens
  · obtain ⟨x, hnc, _⟩ := next_char_literal c st.hand rng hlit hok.1
    rw [hnc]
    obtain ⟨e', h', n', rng', hch, hok'⟩ :=
      check_hand_HandOK c st.even st.hand st.nextHand rng.shift hok
    dsimp only
    rw [hch, track_forced_other c _ hN hn hS hs]
    refine ⟨_, rng', rfl, ?_, hwm, rfl, rfl, rfl, hok'⟩
    simp [hlit]
  · rw [next_char_not_literal c CHARS st.hand rng hlit]
    obtain ⟨e', h', n', rng', hch, hok'⟩ :=
      check_hand_HandOK c st.even st.hand st.nextHand rng hok
    dsimp only
    rw [hch, track_forced_other c _ hN hn hS hs]
    refine ⟨_, rng', rfl, ?_, hwm, rfl, rfl, rfl, hok'⟩
    simp [hlit]

/-- The loop over a spec without word tokens: it succeeds, grows the buffer
by the number of literal tokens, and leaves the accumulator, the forced-index
lists and the hand well-formedness intact. -/
theorem pass_loop_no_word (words : WordCat) : ∀ (spec : List Char) (st : PassState) (rng : RNG),
    (∀ c ∈ spec, c ∉ wordTokens) → st.wordMin = 0 →
    HandOK st.even st.hand st.nextHand →
    ∃ st' rng', pass_loop words CHARS spec st rng = .ok (st', rng') ∧
      st'.password.length = st.password.length + countLiterals spec ∧
      st'.wordMin = 0 ∧ st'.wordMax = st.wordMax ∧
      st'.localNumber = st.localNumber ∧ st'.localSymbol = st.localSymbol ∧
      HandOK st'.even st'.hand st'.nextHand := by
  intro spec
  induction spec with
  | nil =>
    intro st rng _ hwm hok
    exact ⟨st, rng, rfl, by simp [countLiterals], hwm, rfl, rfl, rfl, hok⟩
  | cons c rest ih =>
    intro st rng hno hwm hok
    obtain ⟨st1, rng1, hstep, hlen, hwm1, hmax1, hln1, hls1, hok1⟩ :=
      pass_step_no_word words c st rng (hno c (List.mem_cons_self c rest)) hwm hok
    obtain ⟨st', rng', hloop, hlen', hwm', hmax', hln', hls', hok'⟩ :=
      ih st1 rng1 (fun d hd => hno d (List.mem_cons_of_mem c hd)) hwm1 hok1
    refine ⟨st', rng', ?_, ?_, hwm', hmax'.trans hmax1, hln'.trans hln1,
      hls'.trans hls1, hok'⟩
    · rw [pass_loop, hstep]
      exact hloop
    · rw [hlen', hlen]
      unfold countLiterals
      rw [List.countP_cons]
      by_cases hl : c ∈ literalTokens
      · rw [if_pos (decide_eq_true hl), if_pos hl]
        omega
      · rw [if_neg (fun h => hl (of_decide_eq_true h)), if_neg hl]
        omega

/-- C6 helper: with no word tokens, a non-empty spec passes the `spec[-1]`
inspection unchanged. -/
theorem spec_extend_no_word (spec : List Char) (hne : spec ≠ [])
    (hno : ∀ c ∈ spec, c ∉ wordTokens) : spec_extend spec = .ok spec := by
  obtain ⟨lastc, hl⟩ : ∃ a, spec.getLast? = some a :=
    Option.isSome_iff_exists.1 (List.getLast?_isSome.2 hne)
  have hlmem : lastc ∈ spec := List.mem_of_mem_getLast? (Option.mem_def.2 hl)
  unfold spec_extend
  rw [hl]
  have hcont : ("WwNnSs".toList).contains lastc = false := by
    cases hb : ("WwNnSs".toList).contains lastc with
    | false => rfl
    | true => exact absurd (List.mem_of_elem_eq_true hb) (hno lastc hlmem)
  dsimp only
  rw [hcont]
  simp

/-! ### Concrete fixtures for witnesses and counterexamples -/

/-- The all-zero random stream. -/
def zeroRng : RNG := fun _ => 0

/-- An empty word catalog. -/
def wcat0 : WordCat := ⟨[], [], [], [], []⟩

/-- A catalog whose only word is the three-letter word `cat`. -/
def wcat3 : WordCat := ⟨[], [], [], [], [['c', 'a', 't']]⟩

/-- A catalog whose only word is the four-letter word `word`. -/
def wcat4 : WordCat := ⟨[], [], [], [], [['w', 'o', 'r', 'd']]⟩

/-! ### Claim theorems -/

/-- C6: for every non-empty spec containing no word tokens (`W`, `w`, `N`,
`n`, `S`, `s`), with truncation disabled and no caller-supplied forced
indexes, `get_pass` succeeds and the password length equals the number of
literal-producing tokens (`#`, `$`, `A`, `a`, `L`, `.`) in the spec; the mode
tokens, the terminator and characters outside the token table contribute no
characters. -/
theorem generate_length_counts_literals (spec : List Char) (words : WordCat)
    (mapping : MapPair) (rng : RNG) (hne : spec ≠ [])
    (hno : ∀ c ∈ spec, c ∉ wordTokens) :
    ∃ p rng', get_pass spec words CHARS mapping [] [] 0 rng = .ok (p, rng') ∧
      p.length = countLiterals spec := by
  have hok : HandOK initState.even initState.hand initState.nextHand := by
    refine ⟨Or.inr (Or.inr rfl), fun h => ?_⟩
    simp [initState] at h
  obtain ⟨st', rng', hloop, hlen, _, _, hln, hls, _⟩ :=
    pass_loop_no_word words spec initState rng hno rfl hok
  have hln' : st'.localNumber = [] := hln
  have hls' : st'.localSymbol = [] := hls
  unfold get_pass get_pass_core
  rw [spec_extend_no_word spec hne hno]
  dsimp only
  rw [hloop]
  dsimp only
  rw [hln', hls', List.nil_append, force_char_nil]
  dsimp only
  rw [force_char_nil]
  dsimp only
  refine ⟨st'.password, rng', ?_, ?_⟩
  · unfold truncate_pass
    simp
  · simpa [initState] using hlen

/-- Witness for C6 at the one-token spec `#`. -/
theorem generate_length_counts_literals_witness :
    ∃ p rng', get_pass ['#'] wcat0 CHARS MOD10 [] [] 0 zeroRng = .ok (p, rng') ∧
      p.length = countLiterals ['#'] :=
  generate_length_counts_literals ['#'] wcat0 MOD10 zeroRng (by decide) (by decide)

/-- C9: `get_pass` inspects `spec[-1]` before the processing pass, so the
empty spec fails with an `IndexError` instead of returning the empty
password, while the inspection succeeds on every non-empty spec. -/
theorem generate_empty_spec_index_error (words : WordCat) (chars : String → List Char)
    (mapping : MapPair) (tn ts : List Nat) (trunc : Nat) (rng : RNG) :
    get_pass [] words chars mapping tn ts trunc rng = .error .indexError ∧
    ∀ spec : List Char, spec ≠ [] → ∃ s, spec_extend spec = .ok s := by
  constructor
  · rfl
  · intro spec hs
    obtain ⟨a, ha⟩ := Option.isSome_iff_exists.1 (List.getLast?_isSome.2 hs)
    unfold spec_extend
    rw [ha]
    exact ⟨_, rfl⟩

/-- Witness for C9: the empty spec errors, the spec `W` passes inspection. -/
theorem generate_empty_spec_index_error_witness :
    get_pass [] wcat0 CHARS MOD10 [] [] 0 zeroRng = .error .indexError ∧
    ∃ s, spec_extend ['W'] = .ok s :=
  ⟨(generate_empty_spec_index_error wcat0 CHARS MOD10 [] [] 0 zeroRng).1,
   (generate_empty_spec_index_error wcat0 CHARS MOD10 [] [] 0 zeroRng).2 ['W'] (by decide)⟩

/-- C8: truncation removes at most `trunc` characters from the end of the
generated password, the count `k` being the consumed random value reduced
modulo `trunc + 1` (hence ranging over `[0, trunc]`) when `trunc` is
positive, and `trunc = 0` leaves the password untouched. -/
theorem generate_truncation_bounded (spec : List Char) (words : WordCat)
    (chars : String → List Char) (mapping : MapPair) (tn ts : List Nat) (trunc : Nat)
    (rng : RNG) (p : List Char) (rng1 : RNG)
    (h : get_pass_core spec words chars mapping tn ts rng = .ok (p, rng1)) :
    ∃ k, k ≤ trunc ∧
      get_pass spec words chars mapping tn ts trunc rng =
        .ok (p.take (p.length - k), if trunc = 0 then rng1 else rng1.shift) ∧
      (trunc = 0 → k = 0) ∧ (trunc ≠ 0 → k = rng1 0 % (trunc + 1)) := by
  unfold get_pass
  rw [h]
  dsimp only
  by_cases ht : trunc = 0
  · subst ht
    refine ⟨0, Nat.le_refl 0, ?_, fun _ => rfl, fun hn => absurd rfl hn⟩
    unfold truncate_pass
    simp
  · refine ⟨rng1 0 % (trunc + 1),
      Nat.lt_succ_iff.1 (Nat.mod_lt _ (Nat.succ_pos trunc)), ?_,
      fun h0 => absurd h0 ht, fun _ => rfl⟩
    unfold truncate_pass
    rw [if_pos ht, if_neg ht]
    simp only [RNG.take1]
    by_cases hk : rng1 0 % (trunc + 1) = 0
    · rw [hk]
      simp
    · rw [if_pos hk]

/-- Witness for C8 at the spec `#` with `trunc = 2` and the zero stream. -/
theorem generate_truncation_bounded_witness :
    ∃ k, k ≤ 2 ∧
      get_pass ['#'] wcat0 CHARS MOD10 [] [] 2 zeroRng =
        .ok ((['1'] : List Char).take ((['1'] : List Char).length - k),
          if (2 : Nat) = 0 then zeroRng else zeroRng.shift) ∧
      ((2 : Nat) = 0 → k = 0) ∧ ((2 : Nat) ≠ 0 → k = zeroRng 0 % (2 + 1)) :=
  generate_truncation_bounded ['#'] wcat0 CHARS MOD10 [] [] 2 zeroRng ['1'] zeroRng rfl

/-- C1 (code bug): the loop building `MOD10` assigns whole entries instead of
per-letter keys, so the final value pairs the plain strings `6` and `^`; the
letter `a` (alphabet position 1, which the claim sends to the digit `1`) has
no `to-number` entry at all, while the `PHONE` and `VERTICAL` tables are
total over the lowercase letters as claimed. -/
theorem MOD10_overwritten_not_per_letter :
    MOD10 = { toNumber := .str ['6'], toSymbol := .str ['^'] } ∧
    pyMem MOD10.toNumber 'a' = false ∧ pyGet MOD10.toNumber 'a' = none ∧
    (∀ c ∈ lowerAZ, pyMem PHONE.toNumber c = true ∧ pyMem PHONE.toSymbol c = true ∧
      pyMem VERTICAL.toNumber c = true ∧ pyMem VERTICAL.toSymbol c = true) := by
  refine ⟨by decide, by decide, by decide, by decide⟩

/-- C2 (code bug): when no catalog word fits the length bounds (here the
spec `NNNN` wants a four-letter word but the catalog only holds `cat`), the
word flush crashes with the `IndexError` of `random.choice` on an empty
list; no catchable `NoEligibleWord` error exists anywhere in the code. -/
theorem generate_no_eligible_word_crashes :
    get_pass "NNNN".toList wcat3 CHARS MOD10 [] [] 0 zeroRng = .error .indexError := rfl

/-- C4 counterexample: forcing index 0 of `a` once with the `PHONE` number
mapping yields `2` (its mapping image), but forcing the result again draws a
random fallback digit, `1` on the zero stream, because `2` has no mapping
entry — so forcing the same index twice does not yield the same character as
forcing once. -/
theorem force_idempotent_counterexample :
    force_char ['a'] [0] PHONE.toNumber (CHARS "any-number") zeroRng
      = .ok (['2'], zeroRng) ∧
    force_char ['2'] [0] PHONE.toNumber (CHARS "any-number") zeroRng
      = .ok (['1'], zeroRng) ∧
    ('1' : Char) ≠ '2' := ⟨rfl, rfl, by decide⟩

/-- Forcing a single in-range index puts a forced-class character there and
preserves the length. -/
theorem force_char_single (p : List Char) (i : Nat) (mapping : PyVal) (anyC : List Char)
    (rng : RNG) (out : List Char) (rng' : RNG) (hi : i < p.length)
    (h : force_char p [i] mapping anyC rng = .ok (out, rng')) :
    inForcedClass mapping anyC (out.getD i ' ') ∧ out.length = p.length := by
  rw [force_char_cons_lt [] mapping anyC rng hi] at h
  cases hm : pyMem mapping (p.getD i ' ') with
  | true =>
    rw [hm] at h
    simp only [if_pos] at h
    cases hg : pyGet mapping (p.getD i ' ') with
    | none => rw [hg] at h; exact absurd h (by simp)
    | some ch =>
      rw [hg] at h
      dsimp only at h
      rw [force_char_nil] at h
      simp only [Except.ok.injEq, Prod.mk.injEq] at h
      obtain ⟨h1, _⟩ := h
      subst h1
      constructor
      · rw [List.getD_eq_getElem?_getD, slice_getElem_self ch hi]
        exact Or.inl ⟨p.getD i ' ', hm, hg⟩
      · exact slice_length ch hi
  | false =>
    rw [hm] at h
    simp only [Bool.false_eq_true, if_false] at h
    cases hc : pyChoice anyC rng with
    | error e => rw [hc] at h; exact absurd h (by simp)
    | ok v =>
      obtain ⟨x, rng1⟩ := v
      obtain ⟨hxmem, _⟩ := pyChoice_ok hc
      rw [hc] at h
      dsimp only at h
      rw [force_char_nil] at h
      simp only [Except.ok.injEq, Prod.mk.injEq] at h
      obtain ⟨h1, _⟩ := h
      subst h1
      constructor
      · rw [List.getD_eq_getElem?_getD, slice_getElem_self x hi]
        exact Or.inr hxmem
      · exact slice_length x hi

/-- C4 amended: under a fixed mapping and fallback set, forcing the same
in-range index twice yields at that index a character of the forced class
(a mapping image or a fallback-set element) both times — the forced class,
not the exact character, is what repeated forcing preserves. -/
theorem force_twice_same_class (p : List Char) (i : Nat) (mapping : PyVal)
    (anyC : List Char) (rng rng2 : RNG) (p1 p2 : List Char) (r1 r2 : RNG)
    (hi : i < p.length)
    (h1 : force_char p [i] mapping anyC rng = .ok (p1, r1))
    (h2 : force_char p1 [i] mapping anyC rng2 = .ok (p2, r2)) :
    inForcedClass mapping anyC (p1.getD i ' ') ∧
    inForcedClass mapping anyC (p2.getD i ' ') := by
  obtain ⟨hcls1, hlen1⟩ := force_char_single p i mapping anyC rng p1 r1 hi h1
  obtain ⟨hcls2, _⟩ := force_char_single p1 i mapping anyC rng2 p2 r2 (by omega) h2
  exact ⟨hcls1, hcls2⟩

/-- Witness for the amended C4 on the counterexample run. -/
theorem force_twice_same_class_witness :
    inForcedClass PHONE.toNumber (CHARS "any-number") ((['2'] : List Char).getD 0 ' ') ∧
    inForcedClass PHONE.toNumber (CHARS "any-number") ((['1'] : List Char).getD 0 ' ') :=
  force_twice_same_class ['a'] 0 PHONE.toNumber (CHARS "any-number") zeroRng zeroRng
    ['2'] ['1'] zeroRng zeroRng (by decide) rfl rfl

/-- C10: a successful forcing pass preserves the buffer length, keeps the
character of every in-range position not listed, and when every listed index
is past the end it returns the buffer (and random state) untouched. -/
theorem force_char_frame_props (p : List Char) (indexes : List Nat) (mapping : PyVal)
    (anyC : List Char) (rng : RNG) (out : List Char) (rng' : RNG)
    (h : force_char p indexes mapping anyC rng = .ok (out, rng')) :
    out.length = p.length ∧
    (∀ j, j < p.length → j ∉ indexes → out[j]? = p[j]?) ∧
    ((∀ i ∈ indexes, p.length ≤ i) → out = p ∧ rng' = rng) := by
  obtain ⟨h1, h2⟩ := force_char_frame indexes p mapping anyC rng out rng' h
  refine ⟨h1, h2, fun hoob => ?_⟩
  rw [force_char_oob indexes p mapping anyC rng hoob] at h
  simp only [Except.ok.injEq, Prod.mk.injEq] at h
  exact ⟨h.1.symm, h.2.symm⟩

/-- Witness for C10: forcing index 0 of `ab` with the `PHONE` mapping. -/
theorem force_char_frame_props_witness :
    (['2', 'b'] : List Char).length = (['a', 'b'] : List Char).length ∧
    (∀ j, j < (['a', 'b'] : List Char).length → j ∉ ([0] : List Nat) →
      (['2', 'b'] : List Char)[j]? = (['a', 'b'] : List Char)[j]?) ∧
    ((∀ i ∈ ([0] : List Nat), (['a', 'b'] : List Char).length ≤ i) →
      ['2', 'b'] = ['a', 'b'] ∧ zeroRng = zeroRng) :=
  force_char_frame_props ['a', 'b'] [0] PHONE.toNumber (CHARS "any-number") zeroRng
    ['2', 'b'] zeroRng rfl

/-- The adjacent-pairs test of `handed` agrees with `alternates`. -/
theorem zip_all_iff_alternates : ∀ l : List Bool,
    ((List.zipWith (fun a b => a != b) l l.tail).all id = true) ↔ alternates l = true
  | [] => by simp [alternates]
  | [a] => by simp [alternates]
  | a :: b :: rest => by
    have ih := zip_all_iff_alternates (b :: rest)
    simp only [List.tail_cons, List.zipWith_cons_cons, List.all_cons, alternates,
      Bool.and_eq_true, id] at ih ⊢
    exact and_congr Iff.rfl ih

/-- Full count of `true` in a boolean list is the all-true test. -/
theorem count_true_eq_length_iff_all (l : List Bool) :
    (l.count true = l.length) ↔ l.all id = true := by
  rw [List.count_eq_length, List.all_eq_true]
  constructor
  · intro h b hb
    exact (h b hb).symm
  · intro h b hb
    exact (h b hb).symm

/-- C7: `handed` computes exactly the classification worded by the
specification — `left` when no character is right-handed (including the
empty word), `right` when all are (in particular any single right-hand
character), `even` when handedness strictly alternates, `mixed` otherwise. -/
theorem handed_matches_spec (word : List Char) : handed word = handed_spec word := by
  unfold handed handed_spec
  have hmap : (fun c => (CHARS "right-all").contains c) = isRightChar := rfl
  rw [hmap]
  dsimp only
  by_cases hA : ∀ c ∈ word, isRightChar c = false
  · have h0 : (word.map isRightChar).count true = 0 := by
      rw [List.count_eq_zero]
      intro hmem
      obtain ⟨c, hc, hfc⟩ := List.mem_map.1 hmem
      rw [hA c hc] at hfc
      exact absurd hfc (by decide)
    have hall : word.all (fun c => !(isRightChar c)) = true :=
      List.all_eq_true.2 (fun c hc => by rw [hA c hc]; rfl)
    rw [if_pos h0, if_pos hall]
  · have hex : ∃ c ∈ word, isRightChar c = true := by
      by_contra hne
      push_neg at hne
      refine hA (fun c hc => ?_)
      cases hb : isRightChar c with
      | false => rfl
      | true => exact absurd hb (hne c hc)
    obtain ⟨c0, hc0, hfc0⟩ := hex
    have h0 : ¬ ((word.map isRightChar).count true = 0) := by
      rw [List.count_eq_zero]
      intro h
      exact h (List.mem_map.2 ⟨c0, hc0, hfc0⟩)
    have hallnot : ¬ (word.all (fun c => !(isRightChar c)) = true) := by
      intro h
      have := List.all_eq_true.1 h c0 hc0
      rw [hfc0] at this
      exact absurd this (by decide)
    rw [if_neg h0, if_neg hallnot]
    by_cases hB : ∀ c ∈ word, isRightChar c = true
    · have hlen : (word.map isRightChar).count true = (word.map isRightChar).length := by
        rw [List.count_eq_length]
        intro b hb
        obtain ⟨c, hc, hfc⟩ := List.mem_map.1 hb
        rw [← hfc]
        exact (hB c hc).symm
      have hall2 : word.all isRightChar = true := List.all_eq_true.2 hB
      rw [if_pos hlen, if_pos hall2]
    · have hlen : ¬ ((word.map isRightChar).count true = (word.map isRightChar).length) := by
        intro h
        refine hB (fun c hc => ?_)
        exact (List.count_eq_length.1 h (isRightChar c) (List.mem_map.2 ⟨c, hc, rfl⟩)).symm
      have hall2 : ¬ (word.all isRightChar = true) := fun h => hB (List.all_eq_true.1 h)
      rw [if_neg hlen, if_neg hall2]
      have hiff := zip_all_iff_alternates (word.map isRightChar)
      have hcnt := count_true_eq_length_iff_all
        (List.zipWith (fun a b => a != b) (word.map isRightChar) (word.map isRightChar).tail)
      by_cases halt : alternates (word.map isRightChar) = true
      · rw [if_pos (hcnt.2 (hiff.2 halt)), if_pos halt]
      · rw [if_neg (fun hp => halt (hiff.1 (hcnt.1 hp))), if_neg halt]

/-- The hand settings immediately after processing the token `=` from the
initial state on the all-zero random stream. -/
def stAfterEq : PassState :=
  { localNumber := [], localSymbol := [], hand := "left", nextHand := "right",
    even := true, wordMin := 0, wordMax := 0, password := [] }

/-- C3 counterexample: on the spec `=#` with the zero stream, `=` leaves the
even-handed state on hand `left`; processing `#` appends the literal `1`, an
element of `left-number`, while the token's own transition and swap produce
hand `right` — and `1` is not in `right-number`.  The literal is drawn from
the hand state before the token's own swap, not after it as claimed. -/
theorem literal_before_swap_counterexample :
    pass_step wcat0 CHARS '=' initState zeroRng = .ok (stAfterEq, zeroRng) ∧
    pass_step wcat0 CHARS '#' stAfterEq zeroRng =
      .ok ({ stAfterEq with
              password := ['1'], hand := "right", nextHand := "left" }, zeroRng) ∧
    '1' ∈ CHARS ("left" ++ kind_key '#') ∧
    '1' ∉ CHARS ("right" ++ kind_key '#') :=
  ⟨rfl, rfl, by decide, by decide⟩

/-- C3 amended: a literal token's character is drawn from the hand state
left by the previous token's transition and swap, updated only by the
current token's word-flush swap; the token's own transition and swap apply
to the state seen by later tokens. -/
theorem pass_step_literal_uses_preswap_hand (words : WordCat) (c : Char) (st : PassState)
    (rng : RNG) (st1 : PassState) (rng1 : RNG)
    (hc : c ∈ literalTokens)
    (hflush : flush_word words CHARS st rng = .ok (st1, rng1))
    (hh : st1.hand = "left" ∨ st1.hand = "right" ∨ st1.hand = "any") :
    ∃ x st2 rng2, pass_step words CHARS c st rng = .ok (st2, rng2) ∧
      st2.password = st1.password ++ [x] ∧ x ∈ CHARS (st1.hand ++ kind_key c) := by
  have hcw : c ∉ wordTokens := not_word_of_literal hc
  have hN : c ≠ 'N' := fun he => hcw (by rw [he]; decide)
  have hn : c ≠ 'n' := fun he => hcw (by rw [he]; decide)
  have hS : c ≠ 'S' := fun he => hcw (by rw [he]; decide)
  have hs : c ≠ 's' := fun he => hcw (by rw [he]; decide)
  unfold pass_step
  rw [not_contains_WNS hcw, not_contains_wns hcw]
  simp only [Bool.false_eq_true, if_false]
  rw [hflush]
  dsimp only
  obtain ⟨x, hnc, hxm⟩ := next_char_literal c st1.hand rng1 hc hh
  rw [hnc]
  dsimp only
  rw [track_forced_other c _ hN hn hS hs]
  exact ⟨x, _, _, rfl, rfl, hxm⟩

/-- Witness for the amended C3: the token `#` from the initial (any-handed,
no pending word) state. -/
theorem pass_step_literal_uses_preswap_hand_witness :
    ∃ x st2 rng2, pass_step wcat0 CHARS '#' initState zeroRng = .ok (st2, rng2) ∧
      st2.password = initState.password ++ [x] ∧
      x ∈ CHARS (initState.hand ++ kind_key '#') :=
  pass_step_literal_uses_preswap_hand wcat0 '#' initState zeroRng initState zeroRng
    (by decide) rfl (Or.inr (Or.inr rfl))

/-- An in-range `getD` is a member of the list. -/
theorem getD_mem_of_lt {p : List Char} {i : Nat} (h : i < p.length) : p.getD i ' ' ∈ p := by
  rw [List.getD_eq_getElem?_getD, List.getElem?_eq_getElem h]
  exact List.getElem_mem h

/-- The loop state after the four `N` tokens of the spec `NNNN`. -/
def stNNNN : PassState :=
  { localNumber := [0, 1, 2, 3], localSymbol := [], hand := "any", nextHand := "",
    even := false, wordMin := 4, wordMax := 4, password := [] }

/-- C5: for a catalog of lowercase-letter words containing a word of length
exactly four in its `any` category, `generate('NNNN', words, chars)` (with
the default `MOD10` mapping) succeeds and returns exactly four characters,
each a member of the `any-number` class: every recorded word-letter position
is forced into the requested class no matter which letters the chosen word
produced. -/
theorem generate_NNNN_all_digits (words : WordCat) (rng : RNG)
    (h4 : ∃ w ∈ words.any, w.length = 4)
    (hlet : ∀ w ∈ words.any, ∀ c ∈ w, c ∈ lowerAZ) :
    ∃ p rng', get_pass "NNNN".toList words CHARS MOD10 [] [] 0 rng = .ok (p, rng') ∧
      p.length = 4 ∧ ∀ c ∈ p, c ∈ CHARS "any-number" := by
  -- the eligible four-letter words and the chosen one
  have hvne : (words.any).filter
      (fun w => decide (4 ≤ w.length) && decide (w.length ≤ 4)) ≠ [] := by
    obtain ⟨w, hw, hw4⟩ := h4
    refine List.ne_nil_of_mem (List.mem_filter.2 ⟨hw, ?_⟩)
    rw [hw4]
    decide
  have hchoice := pyChoice_of_ne_nil
    ((words.any).filter (fun w => decide (4 ≤ w.length) && decide (w.length ≤ 4))) rng hvne
  obtain ⟨w0, hw0c, hw0mem⟩ := hchoice
  have hw0any : w0 ∈ words.any := (List.mem_filter.1 hw0mem).1
  have hw0len : w0.length = 4 := by
    have hb := (List.mem_filter.1 hw0mem).2
    simp only [Bool.and_eq_true, decide_eq_true_eq] at hb
    omega
  have hplen : (title w0).length = 4 := (title_length w0).trans hw0len
  -- the word selection
  have hgw : get_word words 4 4 false "any" rng = .ok (title w0, rng.shift) := by
    have hgw0 : get_word words 4 4 false "any" rng =
        match pyChoice ((words.any).filter
            (fun w => decide (4 ≤ w.length) && decide (w.length ≤ 4))) rng with
        | .ok (w, rng') => .ok (title w, rng')
        | .error e => .error e := rfl
    rw [hgw0, hw0c]
  -- the word flush at the terminating token
  have hflush : flush_word words CHARS stNNNN rng =
      .ok ({ localNumber := [0, 1, 2, 3], localSymbol := [], hand := "any", nextHand := "",
             even := false, wordMin := 0, wordMax := 0, password := title w0 }, rng.shift) := by
    have hf0 : flush_word words CHARS stNNNN rng =
        match get_word words 4 4 false "any" rng with
        | .error e => .error e
        | .ok (w, rng1) =>
          .ok ({ localNumber := [0, 1, 2, 3].filter
                    (fun i => decide (i < ([] ++ w : List Char).length)),
                 localSymbol := [], hand := "any", nextHand := "",
                 even := false, wordMin := 0, wordMax := 0, password := [] ++ w }, rng1) := rfl
    rw [hf0, hgw]
    dsimp only
    simp only [List.nil_append, hplen]
    rw [show ([0, 1, 2, 3] : List Nat).filter (fun i => decide (i < 4)) = [0, 1, 2, 3]
      from by decide]
  -- the step on the terminating token
  have hstep : pass_step words CHARS ';' stNNNN rng =
      .ok ({ localNumber := [0, 1, 2, 3], localSymbol := [], hand := "any", nextHand := "",
             even := false, wordMin := 0, wordMax := 0, password := title w0 }, rng.shift) := by
    unfold pass_step
    rw [show ("WNS".toList).contains ';' = false from by decide,
      show ("wns".toList).contains ';' = false from by decide]
    simp only [Bool.false_eq_true, if_false]
    rw [hflush]
    dsimp only
    rw [next_char_not_literal ';' CHARS "any" rng.shift (by decide)]
    dsimp only
    rw [check_hand_other ';' false "any" "" rng.shift (by decide) (by decide) (by decide)
      (by decide)]
    dsimp only
    rw [track_forced_other ';' _ (by decide) (by decide) (by decide) (by decide)]
    simp [List.append_nil]
  -- the whole loop
  have hloop : pass_loop words CHARS ("NNNN;".toList) initState rng =
      .ok ({ localNumber := [0, 1, 2, 3], localSymbol := [], hand := "any", nextHand := "",
             even := false, wordMin := 0, wordMax := 0, password := title w0 }, rng.shift) := by
    have h4s : pass_loop words CHARS ("NNNN;".toList) initState rng =
        pass_loop words CHARS [';'] stNNNN rng := rfl
    rw [h4s, pass_loop, hstep]
    rfl
  -- the number-forcing pass
  have hmemfresh : ∀ i ∈ ([0, 1, 2, 3] : List Nat), i < (title w0).length →
      pyMem MOD10.toNumber ((title w0).getD i ' ') = false := by
    intro i _ hi
    have hc := getD_mem_of_lt hi
    have hl := title_letters w0 (hlet w0 hw0any) _ hc
    refine MOD10_toNumber_no_letter _ ?_
    rcases hl with h | h
    · exact List.mem_append.2 (Or.inl h)
    · exact List.mem_append.2 (Or.inr h)
  obtain ⟨out, rngF, hfc, hlenF, _, hforced⟩ :=
    force_char_fresh [0, 1, 2, 3] (title w0) MOD10.toNumber (CHARS "any-number") rng.shift
      (by decide) (by decide) hmemfresh
  -- assemble the run
  unfold get_pass get_pass_core
  rw [show spec_extend ("NNNN".toList) = .ok ("NNNN;".toList) from rfl]
  dsimp only
  rw [hloop]
  dsimp only
  rw [show ([0, 1, 2, 3] : List Nat) ++ [] = [0, 1, 2, 3] from rfl]
  rw [hfc]
  dsimp only
  rw [show (([] : List Nat) ++ []) = ([] : List Nat) from rfl, force_char_nil]
  dsimp only
  refine ⟨out, rngF, ?_, ?_, ?_⟩
  · rw [show truncate_pass 0 out rngF = (out, rngF) from by unfold truncate_pass; simp]
  · rw [hlenF, hplen]
  · intro c hc
    obtain ⟨i, hi, hci⟩ := List.mem_iff_getElem.1 hc
    have hi4 : i < 4 := by
      rw [hlenF, hplen] at hi
      exact hi
    have himem : i ∈ ([0, 1, 2, 3] : List Nat) := by
      interval_cases i <;> decide
    obtain ⟨d, hd, hdi⟩ := hforced i himem (by omega)
    rw [List.getElem?_eq_getElem hi] at hdi
    have : out[i] = d := Option.some.inj hdi
    rw [← hci, this]
    exact hd

/-- Witness for C5: the one-word catalog `word` on the zero stream. -/
theorem generate_NNNN_all_digits_witness :
    ∃ p rng', get_pass "NNNN".toList wcat4 CHARS MOD10 [] [] 0 zeroRng = .ok (p, rng') ∧
      p.length = 4 ∧ ∀ c ∈ p, c ∈ CHARS "any-number" :=
  generate_NNNN_all_digits wcat4 zeroRng ⟨['w', 'o', 'r', 'd'], by decide, by decide⟩
    (by decide)

end Handy
